import Mathlib

/-!
# Verification of the diff-aware line-filtering core of cpp-linter

Shallow embedding of `src/cpp_linter/common_fs.py`:

* `FileObj._consolidate_list_to_ranges` (range consolidation),
* `FileObj.range_of_changed_lines`,
* `has_line_changes`,
* `is_file_in_list` / `is_source_or_ignored` (path-rule inclusion filter,
  together with models of `pathlib.PurePath(...).as_posix()`,
  `PurePath(...).suffix` and `posixpath.commonpath`),
* `get_line_cnt_from_cols` (byte offset to 1-based line/column).

Python line numbers are arbitrary-precision integers, so they are embedded
as `Int`.  File bytes are embedded as `List Nat` (one entry per byte,
newline = 10).  Python functions that can raise are embedded with
`Except String`.
-/

namespace CppLinter

/-! ## Range Consolidator: `FileObj._consolidate_list_to_ranges` -/

/-- Replace the last element of a list of ranges by `f` applied to it
(the embedding of a Python `result[-1].append(...)` mutation; the
function is never applied to an empty `result` by the loop below). -/
def updateLast (f : List Int → List Int) : List (List Int) → List (List Int)
  | [] => []
  | [r] => [f r]
  | r :: s :: rest => r :: updateLast f (s :: rest)

/-- The body of the `for i, n in enumerate(numbers)` loop of
`FileObj._consolidate_list_to_ranges`.  `prev` is `numbers[i - 1]`
(`none` on the first iteration, i.e. when `not i`), and `lastIter`
is `i == len(numbers) - 1`. -/
def consolidateStep (result : List (List Int)) (prev : Option Int) (n : Int)
    (lastIter : Bool) : List (List Int) :=
  let result1 :=
    match prev with
    | none => result ++ [[n]]
    | some p =>
      if n - 1 ≠ p then updateLast (· ++ [p + 1]) result ++ [[n]]
      else result
  if lastIter then updateLast (· ++ [n + 1]) result1 else result1

/-- The `for i, n in enumerate(numbers)` loop of
`FileObj._consolidate_list_to_ranges`, one `consolidateStep` per
element; the remaining input being empty plays the role of
`i == len(numbers) - 1`. -/
def consolidateLoop (result : List (List Int)) (prev : Option Int) :
    List Int → List (List Int)
  | [] => result
  | n :: rest =>
    consolidateLoop (consolidateStep result prev n rest.isEmpty) (some n) rest

/-- `FileObj._consolidate_list_to_ranges(numbers)`
(`src/cpp_linter/common_fs.py`, lines 37-56): consolidate a list of line
numbers into `[start, end)` ranges. -/
def consolidate_list_to_ranges (numbers : List Int) : List (List Int) :=
  consolidateLoop [] none numbers

/-- Proof-friendly reformulation of the consolidation loop: `start` is the
first element of the currently open range, `prev` the previously seen
number; reaching the end of the input closes the open range at
`prev + 1`. -/
def consolidateAux (prev start : Int) : List Int → List (List Int)
  | [] => [[start, prev + 1]]
  | n :: rest =>
    if n - 1 ≠ prev then [start, prev + 1] :: consolidateAux n n rest
    else consolidateAux n start rest

/-- Recursive reformulation of `consolidate_list_to_ranges` (proved equal
to it in `consolidate_eq_runs`). -/
def consolidateRuns : List Int → List (List Int)
  | [] => []
  | n :: rest => consolidateAux n n rest

/-- The integers of the half-open interval `[a, b)`, in increasing
order. -/
def intRange (a b : Int) : List Int :=
  (List.range (b - a).toNat).map (fun k : Nat => a + (k : Int))

/-- Expand one `[start, end)` range back into its member integers
(a range produced by the consolidator always has exactly two entries). -/
def expandRange (r : List Int) : List Int :=
  match r with
  | [a, b] => intRange a b
  | _ => []

/-- Expand a list of `[start, end)` ranges back into the discrete
integers they cover. -/
def expandRanges (rs : List (List Int)) : List Int :=
  (rs.map expandRange).flatten

/-- Two ranges are ordered and disjoint with a gap: the exclusive end of
the first is strictly below the start of the second. -/
def gapLt (r1 r2 : List Int) : Prop :=
  r1.getD 1 0 < r2.getD 0 0

/-! ## File Descriptor: `FileObj` -/

/-- The constructor data of `FileObj` (`src/cpp_linter/common_fs.py`,
lines 11-35): file name, added line numbers, and diff hunk ranges. -/
structure FileObj where
  name : String
  additions : List Int
  diff_chunks : List (List Int)

/-- `FileObj.lines_added`: computed once in `__init__` from `additions`;
since a `FileObj` is immutable after construction it is embedded as a
derived function. -/
def FileObj.lines_added (f : FileObj) : List (List Int) :=
  consolidate_list_to_ranges f.additions

/-- `FileObj.range_of_changed_lines(lines_changed_only, get_ranges)`
(`src/cpp_linter/common_fs.py`, lines 58-83).  The dynamically typed
Python return value (either a list of line numbers or a list of ranges)
is embedded as a sum; the untyped literal `[]` returned when
`lines_changed_only` is falsy is embedded as `Sum.inl []`. -/
def FileObj.range_of_changed_lines (f : FileObj) (lines_changed_only : Int)
    (get_ranges : Bool) : List Int ⊕ List (List Int) :=
  if lines_changed_only ≠ 0 then
    let ranges := if lines_changed_only = 1 then f.diff_chunks else f.lines_added
    if get_ranges then Sum.inr ranges
    else Sum.inl f.additions
  else
    Sum.inl []

/-- `has_line_changes(lines_changed_only, diff_chunks, additions)`
(`src/cpp_linter/common_fs.py`, lines 124-142).  Python's
`not lines_changed_only` on an `int` is `lines_changed_only == 0`. -/
def has_line_changes (lines_changed_only : Int) (diff_chunks : List (List Int))
    (additions : List Int) : Bool :=
  (lines_changed_only == 1 && decide (0 < diff_chunks.length))
    || (lines_changed_only == 2 && decide (0 < additions.length))
    || (lines_changed_only == 0)

/-! ## Path model: `pathlib.PurePosixPath` and `posixpath.commonpath`

The repository runs `PurePath(...)` / `os.path.commonpath` on
forward-slash paths; these are models of the POSIX behaviour of those
standard-library functions. -/

/-- `str.split("/")` on the character list of a string (kernel-reducible
model of `String.splitOn "/"`): `"a//b"` gives `["a", "", "b"]` and `""`
gives `[""]`. -/
def splitChars (sep : Char) : List Char → List (List Char)
  | [] => [[]]
  | c :: rest =>
    let r := splitChars sep rest
    if c = sep then [] :: r
    else (c :: r.headD []) :: r.tail

/-- Split a path string on `/` and drop empty and `.` components (the
component filtering performed both by `pathlib` parsing and by
`posixpath.commonpath`). -/
def splitFiltered (p : String) : List String :=
  ((splitChars '/' p.data).map String.mk).filter (fun c => c ≠ "" && c ≠ ".")

/-- Does the path string start with `/` (the `p[:1] == sep` absoluteness
test of `posixpath.commonpath`)? -/
def startsWithSlash (p : String) : Bool :=
  match p.data with
  | '/' :: _ => true
  | _ => false

/-- The root of a POSIX `pathlib` path: `//` for exactly two leading
slashes (a POSIX special case `pathlib` preserves), `/` for one or three
and more, empty for a relative path. -/
def posixRoot (p : String) : String :=
  match p.data with
  | '/' :: '/' :: '/' :: _ => "/"
  | '/' :: '/' :: _ => "//"
  | '/' :: _ => "/"
  | _ => ""

/-- `"/".join(components)` (kernel-reducible model of
`String.intercalate "/"`). -/
def joinSlash : List String → String
  | [] => ""
  | [c] => c
  | c :: rest => c ++ "/" ++ joinSlash rest

/-- Model of `pathlib.PurePath(p).as_posix()` on POSIX: normalized string
form — components without empties and `.`, the root kept in front, and
the empty path rendered as `.`. -/
def asPosix (p : String) : String :=
  let comps := splitFiltered p
  let root := posixRoot p
  if root = "" && comps.isEmpty then "."
  else root ++ joinSlash comps

/-- Longest common prefix of two lists of path components (the
segment-by-segment common-prefix computation inside
`posixpath.commonpath`). -/
def commonPrefixL : List String → List String → List String
  | a :: as, b :: bs => if a = b then a :: commonPrefixL as bs else []
  | _, _ => []

/-- Model of `posixpath.commonpath([a, b])` for exactly two paths (the
only arity used by `is_file_in_list`): raises `ValueError` when one path
is absolute and the other relative, otherwise joins the common
components, prefixed by `/` for absolute paths. -/
def commonpath2 (a b : String) : Except String String :=
  if startsWithSlash a ≠ startsWithSlash b then
    Except.error "mixed absolute and relative paths"
  else
    Except.ok ((if startsWithSlash a then "/" else "")
      ++ joinSlash (commonPrefixL (splitFiltered a) (splitFiltered b)))

/-- Model of `result.replace("\\", "/")`: the pattern is a single
character, so this is a character-wise replacement of `\` by `/`. -/
def replaceBackslashes (s : String) : String :=
  String.mk (s.data.map (fun c => if c = '\\' then '/' else c))

/-- `is_file_in_list(paths, file_name, prompt)`
(`src/cpp_linter/common_fs.py`, lines 97-121); the `prompt` parameter is
only used for logging and is dropped.  A rule matches when the common
path of the rule and the file equals the rule string itself
(`result.replace("\\", "/") == path`). -/
def is_file_in_list (paths : List String) (file_name : String) :
    Except String Bool :=
  match paths with
  | [] => Except.ok false
  | path :: rest =>
    match commonpath2 (asPosix path) (asPosix file_name) with
    | Except.error e => Except.error e
    | Except.ok result =>
      if replaceBackslashes result = path then Except.ok true
      else is_file_in_list rest file_name

/-- Whether a single rule matches a file (the success case of one
iteration of `is_file_in_list`). -/
def ruleMatches (rule file_name : String) : Bool :=
  match commonpath2 (asPosix rule) (asPosix file_name) with
  | Except.ok result => replaceBackslashes result == rule
  | Except.error _ => false

/-- A rule path and a file path agree in absoluteness (the condition
under which `posixpath.commonpath` does not raise). -/
def sameAbs (rule file_name : String) : Bool :=
  startsWithSlash (asPosix rule) == startsWithSlash (asPosix file_name)

/-- Model of `pathlib.PurePath(p).name`: the last non-empty, non-`.`
component, or `""` when there is none. -/
def pathName (p : String) : String :=
  (splitFiltered p).getLastD ""

/-- Index of the last `.` in a list of characters, if any
(`str.rfind(".")` on the final path component). -/
def rfindDot : List Char → Option Nat
  | [] => none
  | c :: cs =>
    match rfindDot cs with
    | some k => some (k + 1)
    | none => if c = '.' then some 0 else none

/-- Model of `pathlib.PurePath(p).suffix`: the extension of the final
component, from its last dot, unless that dot is the first or last
character of the component. -/
def pathSuffix (p : String) : String :=
  let name := (pathName p).toList
  match rfindDot name with
  | some i =>
    if 0 < i && i < name.length - 1 then String.mk (name.drop i) else ""
  | none => ""

/-- Model of `str.lstrip(".")`: drop all leading dots. -/
def lstripDots (s : String) : String :=
  String.mk (s.toList.dropWhile (fun c => c = '.'))

/-- `is_source_or_ignored(file_name, ext_list, ignored, not_ignored)`
(`src/cpp_linter/common_fs.py`, lines 145-166), with Python's
short-circuit `and` / `or` made explicit: the extension check runs
first, then the `not_ignored` lookup, and the `ignored` lookup only if
the former returned `False`. -/
def is_source_or_ignored (file_name : String) (ext_list ignored not_ignored : List String) :
    Except String Bool :=
  if lstripDots (pathSuffix file_name) ∈ ext_list then
    match is_file_in_list not_ignored file_name with
    | Except.error e => Except.error e
    | Except.ok true => Except.ok true
    | Except.ok false =>
      match is_file_in_list ignored file_name with
      | Except.error e => Except.error e
      | Except.ok b => Except.ok (!b)
  else
    Except.ok false

/-- `Except.isOk` specialized to the inclusion filter's result type. -/
def exceptOk (e : Except String Bool) : Bool :=
  match e with
  | Except.ok _ => true
  | Except.error _ => false

/-! ## Offset-to-Position Translator: `get_line_cnt_from_cols` -/

/-- Model of `bytes.rfind(b)` on a byte string: index of the last
occurrence of `b`, or `-1` when `b` does not occur. -/
def bytesRfind (l : List Nat) (b : Nat) : Int :=
  match l with
  | [] => -1
  | x :: xs =>
    let r := bytesRfind xs b
    if 0 ≤ r then r + 1
    else if x = b then 0 else -1

/-- `get_line_cnt_from_cols(file_path, offset)`
(`src/cpp_linter/common_fs.py`, lines 202-216), with the
`Path(file_path).read_bytes()` I/O replaced by the file's byte content
(newline byte = 10): slice the content before `offset`, count newlines
for the line, and subtract the last newline's index (`-1` if none) from
`offset` for the column. -/
def get_line_cnt_from_cols (content : List Nat) (offset : Nat) : Nat × Int :=
  let contents := content.take offset
  (contents.count 10 + 1, (offset : Int) - bytesRfind contents 10)

/-! ## Lemmas about the Range Consolidator -/

theorem updateLast_append_singleton (f : List Int → List Int)
    (xs : List (List Int)) (a : List Int) :
    updateLast f (xs ++ [a]) = xs ++ [f a] := by
  induction xs with
  | nil => rfl
  | cons x xs ih =>
    cases xs with
    | nil => rfl
    | cons y ys => simpa [updateLast] using ih

theorem consolidateStep_open_break (closed : List (List Int)) (s p n : Int)
    (lastIter : Bool) (h : n - 1 ≠ p) :
    consolidateStep (closed ++ [[s]]) (some p) n lastIter
      = if lastIter then (closed ++ [[s, p + 1]]) ++ [[n, n + 1]]
        else (closed ++ [[s, p + 1]]) ++ [[n]] := by
  have e1 : updateLast (· ++ [p + 1]) (closed ++ [[s]]) = closed ++ [[s, p + 1]] :=
    updateLast_append_singleton _ closed [s]
  cases lastIter with
  | false => simp [consolidateStep, h, e1]
  | true =>
    simp only [consolidateStep, if_pos h, e1, if_true]
    rw [show closed ++ [[s, p + 1]] ++ [[n]] = (closed ++ [[s, p + 1]]) ++ [[n]]
      from rfl, updateLast_append_singleton]
    rfl

theorem consolidateStep_open_cont (closed : List (List Int)) (s p n : Int)
    (lastIter : Bool) (h : ¬(n - 1 ≠ p)) :
    consolidateStep (closed ++ [[s]]) (some p) n lastIter
      = if lastIter then closed ++ [[s, n + 1]] else closed ++ [[s]] := by
  cases lastIter with
  | false => simp [consolidateStep, h]
  | true =>
    simp only [consolidateStep, if_neg h, if_true]
    rw [updateLast_append_singleton]
    rfl

theorem consolidateLoop_eq_aux (rest : List Int) :
    ∀ (n : Int) (closed : List (List Int)) (s p : Int),
      consolidateLoop (closed ++ [[s]]) (some p) (n :: rest)
        = closed ++ consolidateAux p s (n :: rest) := by
  induction rest with
  | nil =>
    intro n closed s p
    have e : consolidateLoop (closed ++ [[s]]) (some p) [n]
        = consolidateStep (closed ++ [[s]]) (some p) n true := rfl
    rw [e]
    by_cases h : n - 1 ≠ p
    · rw [consolidateStep_open_break closed s p n true h]
      simp [consolidateAux, h]
    · rw [consolidateStep_open_cont closed s p n true h]
      simp [consolidateAux, h]
  | cons m rest ih =>
    intro n closed s p
    have e : consolidateLoop (closed ++ [[s]]) (some p) (n :: m :: rest)
        = consolidateLoop (consolidateStep (closed ++ [[s]]) (some p) n false)
            (some n) (m :: rest) := rfl
    rw [e]
    by_cases h : n - 1 ≠ p
    · rw [consolidateStep_open_break closed s p n false h]
      simp only [if_neg Bool.false_ne_true]
      rw [ih m (closed ++ [[s, p + 1]]) n n]
      simp [consolidateAux, h]
    · rw [consolidateStep_open_cont closed s p n false h]
      simp only [if_neg Bool.false_ne_true]
      rw [ih m closed s n]
      simp [consolidateAux, h]

theorem consolidate_eq_runs (numbers : List Int) :
    consolidate_list_to_ranges numbers = consolidateRuns numbers := by
  cases numbers with
  | nil => rfl
  | cons n rest =>
    cases rest with
    | nil => rfl
    | cons m rest =>
      have e : consolidate_list_to_ranges (n :: m :: rest)
          = consolidateLoop ([] ++ [[n]]) (some n) (m :: rest) := rfl
      rw [e, consolidateLoop_eq_aux rest m ([] : List (List Int)) n n]
      rfl

theorem intRange_succ_right (a b : Int) (h : a ≤ b) :
    intRange a (b + 1) = intRange a b ++ [b] := by
  have hk : (b + 1 - a).toNat = (b - a).toNat + 1 := by omega
  have hb : a + ((b - a).toNat : Int) = b := by omega
  unfold intRange
  rw [hk, List.range_succ, List.map_append, List.map_singleton, hb]

theorem intRange_single (a : Int) : intRange a (a + 1) = [a] := by
  have hk : (a + 1 - a).toNat = 1 := by omega
  unfold intRange
  rw [hk]
  simp [List.range_succ]

theorem expandRanges_cons (r : List Int) (rs : List (List Int)) :
    expandRanges (r :: rs) = expandRange r ++ expandRanges rs := by
  simp [expandRanges]

theorem expand_consolidateAux (rest : List Int) :
    ∀ p s : Int, s ≤ p → List.Chain' (· < ·) (p :: rest) →
      expandRanges (consolidateAux p s rest) = intRange s (p + 1) ++ rest := by
  induction rest with
  | nil =>
    intro p s _ _
    simp [consolidateAux, expandRanges, expandRange]
  | cons n rest ih =>
    intro p s hsp hch
    rw [List.chain'_cons] at hch
    obtain ⟨hpn, hch⟩ := hch
    by_cases h : n - 1 ≠ p
    · have hrec := ih n n le_rfl hch
      simp only [consolidateAux, if_pos h]
      rw [expandRanges_cons, hrec]
      have hn : expandRange [s, p + 1] = intRange s (p + 1) := rfl
      rw [hn, intRange_single]
      simp
    · have hne : n = p + 1 := by omega
      have hrec := ih n s (by omega) hch
      simp only [consolidateAux, if_neg h]
      rw [hrec, hne, intRange_succ_right s (p + 1) (by omega)]
      simp

/-- Every output of `consolidateAux p s` starts with a range whose first
entry is `s`. -/
theorem consolidateAux_head (rest : List Int) :
    ∀ p s : Int, ∃ b tail, consolidateAux p s rest = [s, b] :: tail := by
  induction rest with
  | nil => intro p s; exact ⟨p + 1, [], rfl⟩
  | cons n rest ih =>
    intro p s
    by_cases h : n - 1 ≠ p
    · exact ⟨p + 1, consolidateAux n n rest, by simp [consolidateAux, h]⟩
    · obtain ⟨b, tail, hb⟩ := ih n s
      exact ⟨b, tail, by simp [consolidateAux, h, hb]⟩

theorem consolidateAux_sorted (rest : List Int) :
    ∀ p s : Int, s ≤ p → List.Chain' (· < ·) (p :: rest) →
      (∀ r ∈ consolidateAux p s rest, ∃ a b, r = [a, b] ∧ a < b)
        ∧ List.Chain' gapLt (consolidateAux p s rest) := by
  induction rest with
  | nil =>
    intro p s hsp _
    refine ⟨?_, ?_⟩
    · intro r hr
      simp only [consolidateAux, List.mem_singleton] at hr
      exact ⟨s, p + 1, hr, by omega⟩
    · simp [consolidateAux]
  | cons n rest ih =>
    intro p s hsp hch
    rw [List.chain'_cons] at hch
    obtain ⟨hpn, hch⟩ := hch
    by_cases h : n - 1 ≠ p
    · have hgap : p + 1 < n := by omega
      obtain ⟨hwf, hchain⟩ := ih n n le_rfl hch
      obtain ⟨b, tail, hb⟩ := consolidateAux_head rest n n
      refine ⟨?_, ?_⟩
      · intro r hr
        simp only [consolidateAux, if_pos h, List.mem_cons] at hr
        rcases hr with hr | hr
        · exact ⟨s, p + 1, hr, by omega⟩
        · exact hwf r hr
      · simp only [consolidateAux, if_pos h]
        rw [List.chain'_cons']
        refine ⟨?_, hchain⟩
        intro y hy
        rw [hb] at hy
        simp only [List.head?_cons, Option.mem_def, Option.some.injEq] at hy
        subst hy
        simpa [gapLt] using hgap
    · simp only [consolidateAux, if_neg h]
      exact ih n s (by omega) hch

/-- The structural facts that hold of the consolidator's output on any
input, well-formed or not: every emitted range has exactly two entries,
the output is no longer than the input, and it is empty only on empty
input. -/
theorem consolidateAux_total (rest : List Int) :
    ∀ p s : Int, (∀ r ∈ consolidateAux p s rest, r.length = 2)
      ∧ (consolidateAux p s rest).length ≤ rest.length + 1 := by
  induction rest with
  | nil =>
    intro p s
    refine ⟨?_, by simp [consolidateAux]⟩
    intro r hr
    simp only [consolidateAux, List.mem_singleton] at hr
    simp [hr]
  | cons n rest ih =>
    intro p s
    by_cases h : n - 1 ≠ p
    · obtain ⟨hwf, hlen⟩ := ih n n
      refine ⟨?_, ?_⟩
      · intro r hr
        simp only [consolidateAux, if_pos h, List.mem_cons] at hr
        rcases hr with hr | hr
        · simp [hr]
        · exact hwf r hr
      · simp only [consolidateAux, if_pos h, List.length_cons]
        omega
    · obtain ⟨hwf, hlen⟩ := ih n s
      refine ⟨?_, ?_⟩
      · intro r hr
        simp only [consolidateAux, if_neg h] at hr
        exact hwf r hr
      · simp only [consolidateAux, if_neg h, List.length_cons]
        omega

/-! ## Claim theorems: Range Consolidator and File Descriptor -/

/-- Claim C1: for every strictly increasing list of integers `S`,
`FileObj._consolidate_list_to_ranges(S)` returns an ordered list of
disjoint half-open `[start, end)` ranges whose expansion reproduces `S`
exactly, with the empty list mapping to the empty list; in particular
`consolidate([]) == []`, `consolidate([5]) == [[5,6]]`,
`consolidate([3,4,5,9]) == [[3,6],[9,10]]`, and
`consolidate([1,2,4,5,6,10]) == [[1,3],[4,7],[10,11]]`. -/
theorem consolidate_ranges_roundtrip :
    (∀ S : List Int, S.Pairwise (· < ·) →
        expandRanges (consolidate_list_to_ranges S) = S
          ∧ List.Chain' gapLt (consolidate_list_to_ranges S)
          ∧ ∀ r ∈ consolidate_list_to_ranges S, ∃ a b, r = [a, b] ∧ a < b)
      ∧ consolidate_list_to_ranges [] = []
      ∧ consolidate_list_to_ranges [5] = [[5, 6]]
      ∧ consolidate_list_to_ranges [3, 4, 5, 9] = [[3, 6], [9, 10]]
      ∧ consolidate_list_to_ranges [1, 2, 4, 5, 6, 10]
          = [[1, 3], [4, 7], [10, 11]] := by
  refine ⟨?_, by decide, by decide, by decide, by decide⟩
  intro S hS
  rw [consolidate_eq_runs]
  cases S with
  | nil => exact ⟨rfl, List.chain'_nil, by simp [consolidateRuns]⟩
  | cons n rest =>
    have hch : List.Chain' (· < ·) (n :: rest) := hS.chain'
    have hexp := expand_consolidateAux rest n n le_rfl hch
    have hsorted := consolidateAux_sorted rest n n le_rfl hch
    refine ⟨?_, ?_, ?_⟩
    · show expandRanges (consolidateAux n n rest) = n :: rest
      rw [hexp, intRange_single]
      rfl
    · exact hsorted.2
    · exact hsorted.1

/-- Witness for C1 at the concrete input `[3, 4, 5, 9]`. -/
theorem consolidate_ranges_roundtrip_witness :
    expandRanges (consolidate_list_to_ranges [3, 4, 5, 9]) = [3, 4, 5, 9] :=
  (consolidate_ranges_roundtrip.1 [3, 4, 5, 9] (by decide)).1

/-- Claim C2: `has_line_changes` is true in mode 0 regardless of the
arguments, true in mode 1 iff `diff_chunks` is non-empty, true in mode 2
iff `additions` is non-empty; in particular
`has_line_changes(1, [], [1]) == false` and
`has_line_changes(2, [[1,5]], []) == false`. -/
theorem has_line_changes_modes :
    (∀ (dc : List (List Int)) (a : List Int), has_line_changes 0 dc a = true)
      ∧ (∀ (dc : List (List Int)) (a : List Int),
          (has_line_changes 1 dc a = true ↔ dc ≠ []))
      ∧ (∀ (dc : List (List Int)) (a : List Int),
          (has_line_changes 2 dc a = true ↔ a ≠ []))
      ∧ has_line_changes 1 [] [1] = false
      ∧ has_line_changes 2 [[1, 5]] [] = false := by
  refine ⟨?_, ?_, ?_, by decide, by decide⟩
  · intro dc a
    simp [has_line_changes]
  · intro dc a
    simp [has_line_changes, List.length_pos]
  · intro dc a
    simp [has_line_changes, List.length_pos]

/-- Claim C6: `range_of_changed_lines` returns an empty list in mode 0
regardless of `get_ranges`, `diff_chunks` in mode 1 with ranges
requested, the consolidated `lines_added` in mode 2 with ranges
requested, and the raw `additions` in mode 2 without ranges. -/
theorem range_of_changed_lines_modes :
    (∀ (f : FileObj) (gr : Bool),
        f.range_of_changed_lines 0 gr = Sum.inl [])
      ∧ (∀ f : FileObj, f.range_of_changed_lines 1 true = Sum.inr f.diff_chunks)
      ∧ (∀ f : FileObj, f.range_of_changed_lines 2 true = Sum.inr f.lines_added)
      ∧ (∀ f : FileObj, f.range_of_changed_lines 2 false = Sum.inl f.additions)
      ∧ (∀ f : FileObj,
          f.lines_added = consolidate_list_to_ranges f.additions) := by
  refine ⟨?_, ?_, ?_, ?_, fun f => rfl⟩ <;>
    intros <;> simp [FileObj.range_of_changed_lines]

/-- Claim C10: in mode 1 (DiffContext) with `get_ranges` false,
`range_of_changed_lines` returns the raw `additions` list, not the diff
hunks — identical to mode 2 for the discrete-lines query. -/
theorem range_of_changed_lines_mode1_discrete :
    (∀ f : FileObj, f.range_of_changed_lines 1 false = Sum.inl f.additions)
      ∧ ∀ f : FileObj,
          f.range_of_changed_lines 1 false = f.range_of_changed_lines 2 false := by
  constructor <;> intro f <;> simp [FileObj.range_of_changed_lines]

/-- Claim C7 counterexample: on the non-increasing input `[5, 3]` the
consolidator does not fail fast — it returns `[[5, 6], [3, 4]]`. -/
theorem consolidate_malformed_cex :
    consolidate_list_to_ranges [5, 3] = [[5, 6], [3, 4]] := by decide

/-- Claim C7 (amended): on non-increasing (malformed) input,
`FileObj._consolidate_list_to_ranges` performs no defensive assertion
and returns normally; e.g. `[2, 2, 3]` yields the overlapping ranges
`[[2, 3], [2, 4]]` and `[9, 7, 8]` yields the out-of-order
`[[9, 10], [7, 9]]`. -/
theorem consolidate_malformed_returns :
    consolidate_list_to_ranges [2, 2, 3] = [[2, 3], [2, 4]]
      ∧ consolidate_list_to_ranges [9, 7, 8] = [[9, 10], [7, 9]] := by decide

/-- Claim C9: for every list of integers, including malformed input, the
consolidator is total: it always completes with a list of two-element
ranges, the single linear pass emits at most one range per input
element, and the output is empty exactly on empty input. -/
theorem consolidate_total :
    ∀ numbers : List Int,
      (∀ r ∈ consolidate_list_to_ranges numbers, r.length = 2)
        ∧ (consolidate_list_to_ranges numbers).length ≤ numbers.length
        ∧ (consolidate_list_to_ranges numbers = [] ↔ numbers = []) := by
  intro numbers
  rw [consolidate_eq_runs]
  cases numbers with
  | nil => simp [consolidateRuns]
  | cons n rest =>
    obtain ⟨hwf, hlen⟩ := consolidateAux_total rest n n
    obtain ⟨b, tail, hb⟩ := consolidateAux_head rest n n
    refine ⟨hwf, ?_, ?_⟩
    · show (consolidateAux n n rest).length ≤ (n :: rest).length
      simp only [List.length_cons]
      omega
    · show consolidateAux n n rest = [] ↔ n :: rest = []
      simp [hb]

/-- Witness for C9 at the concrete input `[5, 3]`. -/
theorem consolidate_total_witness : ([5, 6] : List Int).length = 2 :=
  (consolidate_total [5, 3]).1 [5, 6] (by decide)

/-! ## Lemmas about the Inclusion Filter -/

theorem commonpath2_ok (a b : String) (h : startsWithSlash a = startsWithSlash b) :
    commonpath2 a b
      = Except.ok ((if startsWithSlash a then "/" else "")
          ++ joinSlash (commonPrefixL (splitFiltered a) (splitFiltered b))) := by
  simp [commonpath2, h]

theorem is_file_in_list_ok (f : String) :
    ∀ paths : List String, (∀ r ∈ paths, sameAbs r f = true) →
      is_file_in_list paths f
        = Except.ok (paths.any (fun r => ruleMatches r f)) := by
  intro paths
  induction paths with
  | nil => intro _; rfl
  | cons path rest ih =>
    intro hall
    have hp : startsWithSlash (asPosix path) = startsWithSlash (asPosix f) := by
      have := hall path (List.mem_cons_self path rest)
      simpa [sameAbs] using this
    have hco := commonpath2_ok (asPosix path) (asPosix f) hp
    have hrest := ih (fun r hr => hall r (List.mem_cons_of_mem path hr))
    simp only [is_file_in_list, hco, List.any_cons]
    by_cases hm : replaceBackslashes
        ((if startsWithSlash (asPosix path) then "/" else "")
          ++ joinSlash (commonPrefixL (splitFiltered (asPosix path))
              (splitFiltered (asPosix f)))) = path
    · have hrm : ruleMatches path f = true := by
        simp [ruleMatches, hco, hm]
      simp [hm, hrm]
    · have hrm : ruleMatches path f = false := by
        simp [ruleMatches, hco, hm]
      simp [hm, hrm, hrest]

theorem is_source_or_ignored_ok (f : String) (es ig nig : List String)
    (hig : ∀ r ∈ ig, sameAbs r f = true)
    (hnig : ∀ r ∈ nig, sameAbs r f = true) :
    is_source_or_ignored f es ig nig
      = Except.ok (decide (lstripDots (pathSuffix f) ∈ es)
          && (nig.any (fun r => ruleMatches r f)
              || !(ig.any (fun r => ruleMatches r f)))) := by
  by_cases hm : lstripDots (pathSuffix f) ∈ es
  · simp only [is_source_or_ignored, if_pos hm, is_file_in_list_ok f nig hnig,
      is_file_in_list_ok f ig hig]
    cases hn : nig.any (fun r => ruleMatches r f) <;> simp [hm]
  · simp [is_source_or_ignored, hm]

/-! ## Claim theorems: Inclusion Filter -/

/-- Claim C3: `is_source_or_ignored` returns true iff the path's final
extension (case-sensitive, without leading dot) is in the extension list
and (the path matches some not-ignored rule or matches no ignored rule);
a matching not-ignored rule always wins.  The hypotheses state that the
rules agree with the file in absoluteness, the condition under which the
underlying `os.path.commonpath` calls succeed.  In particular
`"src/lib/foo.cpp"` with `ignored=["src/lib"]` is excluded, and included
again once `not_ignored=["src/lib/foo.cpp"]`. -/
theorem is_source_or_ignored_decision :
    (∀ (f : String) (es ig nig : List String),
        (∀ r ∈ ig, sameAbs r f = true) → (∀ r ∈ nig, sameAbs r f = true) →
        (is_source_or_ignored f es ig nig = Except.ok true ↔
          (lstripDots (pathSuffix f) ∈ es
            ∧ (nig.any (fun r => ruleMatches r f) = true
                ∨ ig.any (fun r => ruleMatches r f) = false))))
      ∧ is_source_or_ignored "src/lib/foo.cpp" ["cpp"] ["src/lib"] []
          = Except.ok false
      ∧ is_source_or_ignored "src/lib/foo.cpp" ["cpp"] ["src/lib"]
          ["src/lib/foo.cpp"] = Except.ok true := by
  refine ⟨?_, by rfl, by rfl⟩
  intro f es ig nig hig hnig
  rw [is_source_or_ignored_ok f es ig nig hig hnig]
  simp only [Except.ok.injEq, Bool.and_eq_true, Bool.or_eq_true,
    decide_eq_true_eq, Bool.not_eq_true']

/-- Witness for C3 at a concrete include decision. -/
theorem is_source_or_ignored_decision_witness :
    is_source_or_ignored "a.cpp" ["cpp"] [] [] = Except.ok true :=
  (is_source_or_ignored_decision.1 "a.cpp" ["cpp"] [] [] (by simp) (by simp)).mpr
    ⟨by decide, Or.inr rfl⟩

theorem commonPrefixL_prefix_left :
    ∀ a b : List String, commonPrefixL a b <+: a := by
  intro a
  induction a with
  | nil => intro b; cases b <;> exact List.nil_prefix
  | cons x as ih =>
    intro b
    cases b with
    | nil => exact List.nil_prefix
    | cons y bs =>
      by_cases h : x = y
      · simpa [commonPrefixL, h, List.cons_prefix_cons] using ih bs
      · simp [commonPrefixL, h, List.nil_prefix]

theorem commonPrefixL_prefix_right :
    ∀ a b : List String, commonPrefixL a b <+: b := by
  intro a
  induction a with
  | nil => intro b; cases b <;> exact List.nil_prefix
  | cons x as ih =>
    intro b
    cases b with
    | nil => exact List.nil_prefix
    | cons y bs =>
      by_cases h : x = y
      · simpa [commonPrefixL, h, List.cons_prefix_cons] using ih bs
      · simp [commonPrefixL, h, List.nil_prefix]

theorem commonPrefixL_longest :
    ∀ (c a b : List String), c <+: a → c <+: b → c <+: commonPrefixL a b := by
  intro c
  induction c with
  | nil => intro a b _ _; exact List.nil_prefix
  | cons x c ih =>
    intro a b hca hcb
    cases a with
    | nil => simpa using List.prefix_nil.mp hca
    | cons ya as =>
      cases b with
      | nil => simpa using List.prefix_nil.mp hcb
      | cons yb bs =>
        rw [List.cons_prefix_cons] at hca hcb
        obtain ⟨hxa, hca⟩ := hca
        obtain ⟨hxb, hcb⟩ := hcb
        subst hxa
        subst hxb
        rw [commonPrefixL, if_pos rfl]
        exact List.cons_prefix_cons.mpr ⟨rfl, ih as bs hca hcb⟩

/-- Claim C4: rule matching uses path-segment boundaries, not raw string
prefixes: `commonPrefixL` is the longest common segment prefix, a single
rule matches exactly when the common path equals the rule, and
consequently the rule `"lib"` matches `"lib/foo.cpp"` but not
`"libfoo.cpp"`, so `"libfoo.cpp"` with `ignored=["lib"]` is included. -/
theorem rule_match_segment_boundary :
    (∀ a b : List String,
        commonPrefixL a b <+: a ∧ commonPrefixL a b <+: b
          ∧ ∀ c : List String, c <+: a → c <+: b → c <+: commonPrefixL a b)
      ∧ (∀ r f : String,
          is_file_in_list [r] f
            = (commonpath2 (asPosix r) (asPosix f)).map
                (fun res => replaceBackslashes res == r))
      ∧ is_file_in_list ["lib"] "lib/foo.cpp" = Except.ok true
      ∧ is_file_in_list ["lib"] "libfoo.cpp" = Except.ok false
      ∧ is_source_or_ignored "libfoo.cpp" ["cpp"] ["lib"] [] = Except.ok true := by
  refine ⟨?_, ?_, by rfl, by rfl, by rfl⟩
  · intro a b
    exact ⟨commonPrefixL_prefix_left a b, commonPrefixL_prefix_right a b,
      fun c => commonPrefixL_longest c a b⟩
  · intro r f
    cases hco : commonpath2 (asPosix r) (asPosix f) with
    | error e => simp [is_file_in_list, hco, Except.map]
    | ok res =>
      by_cases hm : replaceBackslashes res = r
      · simp [is_file_in_list, hco, hm, Except.map]
      · simp [is_file_in_list, hco, hm, Except.map]

/-- Witness for C4 on the lists of path segments of `"lib"` and
`"lib/foo.cpp"`. -/
theorem rule_match_segment_boundary_witness :
    ["lib"] <+: commonPrefixL ["lib"] ["lib", "foo.cpp"] :=
  (rule_match_segment_boundary.1 ["lib"] ["lib", "foo.cpp"]).2.2 ["lib"]
    (by decide) (by decide)

/-- Claim C8 counterexample: the inclusion filter can raise — an ignored
rule with an absolute path and a relative file name make the underlying
`os.path.commonpath` raise `ValueError`. -/
theorem inclusion_filter_cex :
    is_source_or_ignored "a.cpp" ["cpp"] ["/abs"] []
      = Except.error "mixed absolute and relative paths" := by rfl

/-- Claim C8 (amended): the inclusion filter never raises provided every
rule path agrees with the file path in absoluteness (in particular
whenever both rule lists are empty), and with both rule lists empty it
includes exactly the files whose extension is in the allowed list. -/
theorem inclusion_filter_safe :
    (∀ (f : String) (es : List String),
        is_source_or_ignored f es [] []
          = Except.ok (decide (lstripDots (pathSuffix f) ∈ es)))
      ∧ (∀ (f : String) (es ig nig : List String),
          (∀ r ∈ ig, sameAbs r f = true) → (∀ r ∈ nig, sameAbs r f = true) →
          exceptOk (is_source_or_ignored f es ig nig) = true) := by
  constructor
  · intro f es
    rw [is_source_or_ignored_ok f es [] [] (by simp) (by simp)]
    simp
  · intro f es ig nig hig hnig
    rw [is_source_or_ignored_ok f es ig nig hig hnig]
    rfl

/-- Witness for C8 with one relative ignore rule. -/
theorem inclusion_filter_safe_witness :
    exceptOk (is_source_or_ignored "a.cpp" ["cpp"] ["b"] []) = true :=
  inclusion_filter_safe.2 "a.cpp" ["cpp"] ["b"] [] (by decide) (by decide)

/-! ## Lemmas about the Offset-to-Position Translator -/

theorem bytesRfind_not_mem (b : Nat) :
    ∀ l : List Nat, b ∉ l → bytesRfind l b = -1 := by
  intro l
  induction l with
  | nil => intro _; rfl
  | cons x xs ih =>
    intro h
    rw [List.mem_cons] at h
    push_neg at h
    obtain ⟨hx, hxs⟩ := h
    have hr := ih hxs
    simp [bytesRfind, hr, Ne.symm hx]

theorem bytesRfind_last (b : Nat) :
    ∀ (l : List Nat) (i : Nat), l.get? i = some b →
      (∀ j, i < j → l.get? j ≠ some b) → bytesRfind l b = (i : Int) := by
  intro l
  induction l with
  | nil => intro i hi _; simp at hi
  | cons x xs ih =>
    intro i hi hno
    cases i with
    | zero =>
      have hx : x = b := by simpa using hi
      have hxs : b ∉ xs := by
        intro hmem
        obtain ⟨k, hk⟩ := List.mem_iff_get?.mp hmem
        exact hno (k + 1) (Nat.succ_pos k) (by simpa using hk)
      have hr := bytesRfind_not_mem b xs hxs
      simp [bytesRfind, hr, hx]
    | succ k =>
      have hk : xs.get? k = some b := by simpa using hi
      have hno' : ∀ j, k < j → xs.get? j ≠ some b := by
        intro j hj hbad
        exact hno (j + 1) (by omega) (by simpa using hbad)
      have hr := ih k hk hno'
      have hge : (0 : Int) ≤ (k : Int) := Int.natCast_nonneg k
      simp only [bytesRfind, hr]
      rw [if_pos hge]
      push_cast
      ring

/-! ## Claim theorem: Offset-to-Position Translator -/

/-- Claim C5: `get_line_cnt_from_cols` returns a 1-based pair: the line
is the count of newline bytes (10) strictly before the offset plus one;
the column is the offset minus the index of the nearest preceding
newline, with no preceding newline giving column `offset + 1`.  In
particular content `b"ab\ncd"` at offset 4 yields `(2, 2)` and
`b"hello"` at offset 0 yields `(1, 1)`. -/
theorem get_line_cnt_from_cols_spec :
    (∀ (content : List Nat) (offset : Nat),
        (get_line_cnt_from_cols content offset).1
          = (content.take offset).count 10 + 1)
      ∧ (∀ (content : List Nat) (offset : Nat), 10 ∉ content.take offset →
          (get_line_cnt_from_cols content offset).2 = (offset : Int) + 1)
      ∧ (∀ (content : List Nat) (offset i : Nat),
          (content.take offset).get? i = some 10 →
          (∀ j, i < j → (content.take offset).get? j ≠ some 10) →
          (get_line_cnt_from_cols content offset).2 = (offset : Int) - (i : Int))
      ∧ get_line_cnt_from_cols [97, 98, 10, 99, 100] 4 = (2, 2)
      ∧ get_line_cnt_from_cols [104, 101, 108, 108, 111] 0 = (1, 1) := by
  refine ⟨fun content offset => rfl, ?_, ?_, by decide, by decide⟩
  · intro content offset h
    have hr := bytesRfind_not_mem 10 (content.take offset) h
    simp only [get_line_cnt_from_cols, hr]
    ring
  · intro content offset i hi hno
    have hr := bytesRfind_last 10 (content.take offset) i hi hno
    simp only [get_line_cnt_from_cols, hr]

/-- Witness for C5: content `b"hello"` at offset 0 lies on the first
line, so the column is `offset + 1`. -/
theorem get_line_cnt_from_cols_spec_witness :
    (get_line_cnt_from_cols [104, 101, 108, 108, 111] 0).2 = (0 : Int) + 1 :=
  get_line_cnt_from_cols_spec.2.1 [104, 101, 108, 108, 111] 0 (by decide)

end CppLinter
